import Mathlib

/-!
Verification of the protein sequence annotation engine (`analyze_sequence` in
`src/app.py`) against its natural-language specification.

Strings are embedded as `List Char`.  The Python string primitives used by the
source (`upper`, `strip`, `splitlines`, `find`, membership of a substring) are
modelled below; the model covers the ASCII behaviour of those primitives, which
is exhaustive for the inputs the engine accepts (the residue alphabet plus the
ASCII whitespace/digit characters that normalization and validation inspect).
-/

/-- ASCII whitespace characters stripped by Python `str.strip` (the model keeps
the ASCII subset of Python's whitespace class). -/
def isPySpace (c : Char) : Bool :=
  c = ' ' || c = '\t' || c = '\n' || c = '\r' || c = '\x0b' || c = '\x0c' ||
  c = '\x1c' || c = '\x1d' || c = '\x1e' || c = '\x1f' || c = '\x85'

/-- Line boundary characters recognized by Python `str.splitlines`. -/
def isLineBoundary (c : Char) : Bool :=
  c = '\n' || c = '\r' || c = '\x0b' || c = '\x0c' ||
  c = '\x1c' || c = '\x1d' || c = '\x1e' || c = '\x85' ||
  c = '\u2028' || c = '\u2029'

/-- Python `str.upper` (ASCII model). -/
def pyUpper (s : List Char) : List Char :=
  s.map Char.toUpper

/-- Python `str.strip` with no argument: drop leading and trailing whitespace. -/
def pyStrip (s : List Char) : List Char :=
  ((s.dropWhile isPySpace).reverse.dropWhile isPySpace).reverse

/-- Worker for `pySplitlines`: `acc` holds the current (reversed) line.  A
terminating line boundary does not produce a trailing empty line, matching
Python `str.splitlines`. -/
def pySplitlinesAux : List Char → List Char → List (List Char)
  | [], acc => [acc.reverse]
  | [c], acc =>
    if isLineBoundary c then [acc.reverse] else [(c :: acc).reverse]
  | c :: c2 :: rest2, acc =>
    if isLineBoundary c then
      if c = '\r' ∧ c2 = '\n' then
        match rest2 with
        | [] => [acc.reverse]
        | _ :: _ => acc.reverse :: pySplitlinesAux rest2 []
      else acc.reverse :: pySplitlinesAux (c2 :: rest2) []
    else pySplitlinesAux (c2 :: rest2) (c :: acc)

/-- Python `str.splitlines`. -/
def pySplitlines (s : List Char) : List (List Char) :=
  match s with
  | [] => []
  | _ :: _ => pySplitlinesAux s []

/-- The 20-letter amino-acid alphabet of the validation character class
`[ACDEFGHIKLMNPQRSTVWY]` (src/app.py line 28). -/
def ALPHABET : List Char :=
  ['A', 'C', 'D', 'E', 'F', 'G', 'H', 'I', 'K', 'L',
   'M', 'N', 'P', 'Q', 'R', 'S', 'T', 'V', 'W', 'Y']

def isValidResidue (c : Char) : Bool :=
  ALPHABET.contains c

/-- `re.match(r'^[ACDEFGHIKLMNPQRSTVWY]+$', s) is not None` (src/app.py
line 28).  In Python, `$` also matches just before a newline that ends the
string, so a string consisting of one-or-more residues followed by a single
final `'\n'` would also match; the embedding keeps that quirk. -/
def regexValidates (s : List Char) : Bool :=
  (!s.isEmpty && s.all isValidResidue) ||
  (s.getLast? == some '\n' && !s.dropLast.isEmpty && s.dropLast.all isValidResidue)

/-- Normalization prefix of `analyze_sequence` (src/app.py lines 22-25):
`sequence = sequence.upper().strip()`, then if the result starts with `'>'`,
`sequence = "".join(sequence.splitlines()[1:])`. -/
def normalizeSeq (raw : List Char) : List Char :=
  if (pyStrip (pyUpper raw)).head? = some '>' then
    ((pySplitlines (pyStrip (pyUpper raw))).tail).flatten
  else pyStrip (pyUpper raw)

/-- One predicted PTM site: the dict
`{"type": ..., "residue": ..., "pos": ...}` of src/app.py. -/
structure PTM where
  type : String
  residue : Char
  pos : Nat
deriving DecidableEq

/-- The PTM records appended for 0-based position `i` holding `aa`
(src/app.py lines 33-47): the three independent rule checks of one loop
iteration, in source order. -/
def ptmsAt (seq : List Char) (i : Nat) (aa : Char) : List PTM :=
  (if aa = 'S' ∨ aa = 'T' ∨ aa = 'Y' then
    [⟨"Phosphorylation", aa, i + 1⟩] else []) ++
  (if aa = 'N' ∧ i + 2 < seq.length ∧
      (seq.getD (i + 2) ' ' = 'S' ∨ seq.getD (i + 2) ' ' = 'T') ∧
      ¬ seq.getD (i + 1) ' ' = 'P' then
    [⟨"N-glycosylation", aa, i + 1⟩] else []) ++
  (if aa = 'K' then
    [⟨"Acetylation/Ubiquitination", aa, i + 1⟩] else [])

/-- The PTM prediction loop `for i, amino_acid in enumerate(sequence)`
(src/app.py lines 31-47). -/
def scanPTMs (seq : List Char) : List PTM :=
  (List.range seq.length).flatMap fun i => ptmsAt seq i (seq.getD i ' ')

/-- One entry of `DOMAIN_DB` (src/app.py lines 10-15): dict key (the motif)
plus name, description and function. -/
structure CatalogEntry where
  motif : List Char
  name : String
  desc : String
  function : String
deriving DecidableEq

/-- `DOMAIN_DB` in Python dict insertion (= iteration) order. -/
def DOMAIN_DB : List CatalogEntry :=
  [⟨String.toList "SH3", "SH3 Domain",
    "Involved in protein-protein interactions.", "Signaling"⟩,
   ⟨String.toList "KINASE", "Protein Kinase Domain",
    "Catalytic domain for phosphate transfer.", "Enzymatic Activity"⟩,
   ⟨String.toList "WD40", "WD40 Repeat",
    "Scaffold for multi-protein complex assembly.", "Structural"⟩,
   ⟨String.toList "HEME", "Heme-binding Site",
    "Binding site for iron-containing porphyrins.", "Metabolism"⟩]

/-- Does `needle` start the list `hay`? -/
def startsList : List Char → List Char → Bool
  | [], _ => true
  | _ :: _, [] => false
  | a :: as, b :: bs => (a == b) && startsList as bs

/-- Python `str.find` restricted to what the source uses: 0-based index of the
leftmost occurrence of `needle` in `hay`, `none` when absent (`motif in
sequence` is `(strFind motif seq).isSome`). -/
def strFind (needle : List Char) : List Char → Option Nat
  | [] => if startsList needle [] then some 0 else none
  | a :: t =>
    if startsList needle (a :: t) then some 0
    else (strFind needle t).map (· + 1)

/-- One identified domain: the dict
`{"name", "start", "end", "function"}` of src/app.py (the source field `end`
is a Lean keyword, rendered `endPos`). -/
structure DomainMatch where
  name : String
  start : Nat
  endPos : Nat
  function : String
deriving DecidableEq

/-- Loop body of the domain identification loop for one catalog entry
(src/app.py lines 51-59): at most the first occurrence of the literal motif. -/
def domainMatchesFor (seq : List Char) (e : CatalogEntry) : List DomainMatch :=
  match strFind e.motif seq with
  | none => []
  | some idx => [⟨e.name, idx + 1, (idx + 1) + e.motif.length - 1, e.function⟩]

/-- The domain identification loop over `DOMAIN_DB.items()`
(src/app.py lines 50-59). -/
def scanDomains (seq : List Char) : List DomainMatch :=
  DOMAIN_DB.flatMap (domainMatchesFor seq)

/-- One PTM-domain mapping record (src/app.py lines 67-70). -/
structure MappingEntry where
  ptm : String
  domain : String
deriving DecidableEq

/-- The f-string `f"{p['type']} ({p['residue']}{p['pos']})"`. -/
def ptmDescriptor (p : PTM) : String :=
  p.type ++ " (" ++ String.singleton p.residue ++ toString p.pos ++ ")"

/-- The PTM-domain mapping double loop (src/app.py lines 63-70). -/
def crossReference (ptms : List PTM) (domains : List DomainMatch) : List MappingEntry :=
  ptms.flatMap fun p =>
    domains.flatMap fun d =>
      if d.start ≤ p.pos ∧ p.pos ≤ d.endPos then
        [⟨ptmDescriptor p, d.name⟩]
      else []

/-- The functional summary (src/app.py lines 72-77).  Python joins
`set(d['function'] for d in found_domains)`, whose iteration order is
unspecified; the model picks the order of `List.dedup` over the match list. -/
def summarize (domains : List DomainMatch) : String :=
  if domains.isEmpty then
    "No known domains identified. Protein might be intrinsically disordered."
  else
    "This protein contains " ++ toString domains.length ++ " identified domains. " ++
    "Primary functions include: " ++
    String.intercalate ", " (domains.map DomainMatch.function).dedup ++ "."

/-- The return value of `analyze_sequence`: either the error dict (only key
`"error"`) or the success dict (keys `sequence`, `ptms`, `domains`, `mapping`,
`summary`, no `error`). -/
inductive AnalysisResult where
  | error (msg : String)
  | ok (sequence : List Char) (ptms : List PTM) (domains : List DomainMatch)
      (mapping : List MappingEntry) (summary : String)
deriving DecidableEq

def invalidMsg : String :=
  "Invalid characters found in sequence. Please use standard amino acid codes."

/-- `analyze_sequence` (src/app.py lines 17-85). -/
def analyze_sequence (raw : List Char) : AnalysisResult :=
  let sequence := normalizeSeq raw
  if !regexValidates sequence then
    AnalysisResult.error invalidMsg
  else
    let ptms := scanPTMs sequence
    let domains := scanDomains sequence
    let mapping := crossReference ptms domains
    AnalysisResult.ok sequence ptms domains mapping (summarize domains)


/-! ### Spec-side vocabulary and helper lemmas -/

/-- The PTM sites the specification claims the scan emits, phrased over
1-based positions exactly as the claim states them. -/
def claimedPTMSite (seq : List Char) (s : PTM) : Prop :=
  1 ≤ s.pos ∧ s.pos ≤ seq.length ∧ seq.getD (s.pos - 1) ' ' = s.residue ∧
  ((s.type = "Phosphorylation" ∧ (s.residue = 'S' ∨ s.residue = 'T' ∨ s.residue = 'Y')) ∨
   (s.type = "Acetylation/Ubiquitination" ∧ s.residue = 'K') ∨
   (s.type = "N-glycosylation" ∧ s.residue = 'N' ∧ s.pos + 2 ≤ seq.length ∧
     (seq.getD (s.pos + 1) ' ' = 'S' ∨ seq.getD (s.pos + 1) ' ' = 'T') ∧
     ¬ seq.getD s.pos ' ' = 'P'))

lemma mem_ptmsAt {seq : List Char} {i : Nat} {aa : Char} {s : PTM} :
    s ∈ ptmsAt seq i aa ↔
      ((aa = 'S' ∨ aa = 'T' ∨ aa = 'Y') ∧ s = ⟨"Phosphorylation", aa, i + 1⟩) ∨
      ((aa = 'N' ∧ i + 2 < seq.length ∧
         (seq.getD (i + 2) ' ' = 'S' ∨ seq.getD (i + 2) ' ' = 'T') ∧
         ¬ seq.getD (i + 1) ' ' = 'P') ∧ s = ⟨"N-glycosylation", aa, i + 1⟩) ∨
      (aa = 'K' ∧ s = ⟨"Acetylation/Ubiquitination", aa, i + 1⟩) := by
  by_cases h1 : aa = 'S' ∨ aa = 'T' ∨ aa = 'Y' <;>
    by_cases h2 : aa = 'N' ∧ i + 2 < seq.length ∧
      (seq.getD (i + 2) ' ' = 'S' ∨ seq.getD (i + 2) ' ' = 'T') ∧
      ¬ seq.getD (i + 1) ' ' = 'P' <;>
    by_cases h3 : aa = 'K'
  · obtain ⟨rfl, -⟩ := h2
    exact absurd h1 (by decide)
  · obtain ⟨rfl, -⟩ := h2
    exact absurd h1 (by decide)
  · subst h3
    exact absurd h1 (by decide)
  · simp [ptmsAt, h1, h2, h3]
  · obtain ⟨rfl, -⟩ := h2
    exact absurd h3 (by decide)
  · obtain ⟨e, hb, hst, hnp⟩ := h2
    subst e
    simp [ptmsAt, h1, h3, hb, hst, hnp]
  · subst h3
    simp [ptmsAt, h1, h2]
  · simp [ptmsAt, h1, h2, h3]

lemma mem_scanPTMs {seq : List Char} {s : PTM} :
    s ∈ scanPTMs seq ↔ ∃ i, i < seq.length ∧ s ∈ ptmsAt seq i (seq.getD i ' ') := by
  simp [scanPTMs]

lemma ptmsAt_pos {seq : List Char} {i : Nat} {aa : Char} :
    ∀ s ∈ ptmsAt seq i aa, s.pos = i + 1 := by
  intro s hs
  rcases mem_ptmsAt.mp hs with ⟨_, rfl⟩ | ⟨_, rfl⟩ | ⟨_, rfl⟩ <;> rfl

lemma ptmsAt_length {seq : List Char} {i : Nat} {aa : Char} :
    (ptmsAt seq i aa).length ≤ 1 := by
  unfold ptmsAt
  split <;> split <;> split <;> simp_all

lemma map_pos_pairwise_of_short {l : List PTM} (h : l.length ≤ 1) :
    (l.map PTM.pos).Pairwise (· < ·) := by
  match l with
  | [] => simp
  | [x] => simp
  | x :: y :: t => simp at h

lemma scanPTMs_pairwise (seq : List Char) :
    ((scanPTMs seq).map PTM.pos).Pairwise (· < ·) := by
  have key : ∀ n : Nat,
      (((List.range n).flatMap fun i => ptmsAt seq i (seq.getD i ' ')).map
        PTM.pos).Pairwise (· < ·) := by
    intro n
    induction n with
    | zero => simp
    | succ n ih =>
      rw [List.range_succ, List.flatMap_append, List.map_append, List.pairwise_append]
      refine ⟨ih, ?_, ?_⟩
      · simp only [List.flatMap_cons, List.flatMap_nil, List.append_nil]
        exact map_pos_pairwise_of_short ptmsAt_length
      · intro a ha b hb
        simp only [List.flatMap_cons, List.flatMap_nil, List.append_nil] at hb
        rw [List.mem_map] at ha hb
        obtain ⟨sa, hsa, rfl⟩ := ha
        obtain ⟨sb, hsb, rfl⟩ := hb
        rw [List.mem_flatMap] at hsa
        obtain ⟨i, hi, hmi⟩ := hsa
        rw [List.mem_range] at hi
        have h1 := ptmsAt_pos sa hmi
        have h2 := ptmsAt_pos sb hsb
        omega
  exact key seq.length

/-- Claim C1: for every valid canonical sequence, the PTM scan emits exactly
the claimed sites (Phosphorylation at S/T/Y, Acetylation/Ubiquitination at K,
N-glycosylation at N when position `i+2` exists, holds S or T, and `i+1` is
not P), in ascending 1-based position order; for "MSTYK" it yields exactly the
4 sites Phosphorylation at 2, 3, 4 and Acetylation/Ubiquitination at 5. -/
theorem c1_ptm_scan (seq : List Char) :
    (∀ s : PTM, s ∈ scanPTMs seq ↔ claimedPTMSite seq s) ∧
    ((scanPTMs seq).map PTM.pos).Pairwise (· < ·) ∧
    scanPTMs (String.toList "MSTYK") =
      [⟨"Phosphorylation", 'S', 2⟩, ⟨"Phosphorylation", 'T', 3⟩,
       ⟨"Phosphorylation", 'Y', 4⟩, ⟨"Acetylation/Ubiquitination", 'K', 5⟩] := by
  refine ⟨?_, scanPTMs_pairwise seq, by decide⟩
  intro s
  rw [mem_scanPTMs]
  constructor
  · rintro ⟨i, hi, hmem⟩
    rcases mem_ptmsAt.mp hmem with ⟨hc, rfl⟩ | ⟨hc, rfl⟩ | ⟨hc, rfl⟩
    · unfold claimedPTMSite
      dsimp only
      exact ⟨by omega, by omega, rfl, Or.inl ⟨rfl, hc⟩⟩
    · obtain ⟨h1, h2, h3, h4⟩ := hc
      unfold claimedPTMSite
      dsimp only
      exact ⟨by omega, by omega, rfl, Or.inr (Or.inr ⟨rfl, h1, by omega, h3, h4⟩)⟩
    · unfold claimedPTMSite
      dsimp only
      exact ⟨by omega, by omega, rfl, Or.inr (Or.inl ⟨rfl, hc⟩)⟩
  · obtain ⟨t, r, p⟩ := s
    rintro ⟨h1, h2, hres, hdisj⟩
    dsimp only at h1 h2 hres hdisj
    refine ⟨p - 1, by omega, ?_⟩
    rw [mem_ptmsAt]
    have hp : p - 1 + 1 = p := by omega
    rcases hdisj with ⟨ht, hr⟩ | ⟨ht, hr⟩ | ⟨ht, hr, hlen, hst, hnp⟩
    · subst ht
      exact Or.inl ⟨by rw [hres]; exact hr, by rw [hres, hp]⟩
    · subst ht
      exact Or.inr (Or.inr ⟨by rw [hres]; exact hr, by rw [hres, hp]⟩)
    · subst ht
      have e2 : p - 1 + 2 = p + 1 := by omega
      refine Or.inr (Or.inl ⟨⟨by rw [hres]; exact hr, by omega, ?_, ?_⟩, by rw [hres, hp]⟩)
      · rw [e2]; exact hst
      · rw [hp]; exact hnp

/-! ### Claim C9: bounds safety of the PTM scan -/

/-- Fallible variant of one PTM-scan iteration: the N-glycosylation lookahead
reads `sequence[i+2]` and `sequence[i+1]` through fallible indexing, in the
source's evaluation order (guard `i + 2 < len(sequence)` first, then
`sequence[i+2]`, then — only when that residue is S or T — `sequence[i+1]`).
A `none` result would signal an out-of-bounds read. -/
def ptmsAtChecked (seq : List Char) (i : Nat) (aa : Char) : Option (List PTM) :=
  let phos : List PTM :=
    if aa = 'S' ∨ aa = 'T' ∨ aa = 'Y' then [⟨"Phosphorylation", aa, i + 1⟩] else []
  let acet : List PTM :=
    if aa = 'K' then [⟨"Acetylation/Ubiquitination", aa, i + 1⟩] else []
  let glycO : Option (List PTM) :=
    if aa = 'N' ∧ i + 2 < seq.length then
      match seq[i + 2]? with
      | none => none
      | some c2 =>
        if c2 = 'S' ∨ c2 = 'T' then
          match seq[i + 1]? with
          | none => none
          | some c1 =>
            some (if ¬ c1 = 'P' then [⟨"N-glycosylation", aa, i + 1⟩] else [])
        else some []
    else some []
  match glycO with
  | none => none
  | some glyc => some (phos ++ glyc ++ acet)

/-- One fold step of the fallible PTM loop: the loop residue itself is also
read through fallible indexing. -/
def checkedStep (seq : List Char) (acc : Option (List PTM)) (i : Nat) : Option (List PTM) :=
  match acc with
  | none => none
  | some l =>
    match seq[i]? with
    | none => none
    | some aa =>
      match ptmsAtChecked seq i aa with
      | none => none
      | some new => some (l ++ new)

/-- Fallible variant of the whole PTM prediction loop. -/
def scanPTMsChecked (seq : List Char) : Option (List PTM) :=
  (List.range seq.length).foldl (checkedStep seq) (some [])

lemma getElem?_eq_some_getD {seq : List Char} {n : Nat} (h : n < seq.length) :
    seq[n]? = some (seq.getD n ' ') := by
  rw [List.getD_eq_getElem?_getD, List.getElem?_eq_getElem h]
  rfl

lemma ptmsAtChecked_eq (seq : List Char) (i : Nat) (aa : Char) :
    ptmsAtChecked seq i aa = some (ptmsAt seq i aa) := by
  unfold ptmsAtChecked ptmsAt
  by_cases hg : aa = 'N' ∧ i + 2 < seq.length
  · obtain ⟨rfl, hb⟩ := hg
    have hb1 : i + 1 < seq.length := by omega
    by_cases hst : seq.getD (i + 2) ' ' = 'S' ∨ seq.getD (i + 2) ' ' = 'T' <;>
      by_cases hnp : seq.getD (i + 1) ' ' = 'P' <;>
      simp_all [getElem?_eq_some_getD, hb, hb1]
  · have hbig : ¬ (aa = 'N' ∧ i + 2 < seq.length ∧
        (seq.getD (i + 2) ' ' = 'S' ∨ seq.getD (i + 2) ' ' = 'T') ∧
        ¬ seq.getD (i + 1) ' ' = 'P') := fun h => hg ⟨h.1, h.2.1⟩
    simp [hg, hbig]
    intro h1 h2 _
    exact absurd ⟨h1, h2⟩ hg

lemma checkedStep_some {seq : List Char} {i : Nat} (h : i < seq.length) (l : List PTM) :
    checkedStep seq (some l) i = some (l ++ ptmsAt seq i (seq.getD i ' ')) := by
  unfold checkedStep
  rw [getElem?_eq_some_getD h]
  dsimp only
  rw [ptmsAtChecked_eq]

lemma scanPTMsChecked_go (seq : List Char) :
    ∀ (ns : List Nat) (l : List PTM), (∀ i ∈ ns, i < seq.length) →
      ns.foldl (checkedStep seq) (some l)
        = some (l ++ ns.flatMap fun i => ptmsAt seq i (seq.getD i ' ')) := by
  intro ns
  induction ns with
  | nil =>
    intro l _
    simp
  | cons a t ih =>
    intro l hmem
    have ha : a < seq.length := hmem a (List.mem_cons_self a t)
    rw [List.foldl_cons, checkedStep_some ha,
      ih (l ++ ptmsAt seq a (seq.getD a ' ')) fun i hi => hmem i (List.mem_cons_of_mem a hi)]
    simp

/-- Claim C9: the PTM scan is total and performs no out-of-bounds read — the
fallible-indexing variant of the loop, whose lookahead reads are modelled with
partial indexing, never fails and returns exactly `scanPTMs`.  (Termination of
the whole analysis is inherent to the embedding: every function above is a
total structurally- or fold-bounded definition over the sequence and the
catalog.) -/
theorem c9_ptm_scan_safe (seq : List Char) :
    scanPTMsChecked seq = some (scanPTMs seq) := by
  unfold scanPTMsChecked scanPTMs
  rw [scanPTMsChecked_go seq (List.range seq.length) [] fun i hi => List.mem_range.mp hi]
  simp

/-! ### Claim C4: literal motif matching -/

/-- `motif` occurs in `seq` at 0-based index `i`. -/
def occursAt (motif seq : List Char) (i : Nat) : Prop :=
  startsList motif (seq.drop i) = true

lemma strFind_some {needle : List Char} :
    ∀ {hay : List Char} {i : Nat}, strFind needle hay = some i →
      occursAt needle hay i ∧ ∀ j, j < i → ¬ occursAt needle hay j := by
  intro hay
  induction hay with
  | nil =>
    intro i h
    unfold strFind at h
    split_ifs at h with hc
    simp only [Option.some.injEq] at h
    subst h
    exact ⟨hc, fun j hj => absurd hj (by omega)⟩
  | cons a t ih =>
    intro i h
    unfold strFind at h
    split_ifs at h with hc
    · simp only [Option.some.injEq] at h
      subst h
      exact ⟨hc, fun j hj => absurd hj (by omega)⟩
    · rw [Option.map_eq_some'] at h
      obtain ⟨k, hfind, rfl⟩ := h
      obtain ⟨ho, hm⟩ := ih hfind
      refine ⟨ho, ?_⟩
      intro j hj
      match j with
      | 0 => exact hc
      | j + 1 => exact hm j (by omega)

lemma strFind_none {needle : List Char} :
    ∀ {hay : List Char}, strFind needle hay = none → ∀ j, ¬ occursAt needle hay j := by
  intro hay
  induction hay with
  | nil =>
    intro h j
    unfold strFind at h
    split_ifs at h with hc
    intro hocc
    exact hc (by simpa [occursAt, List.drop_nil] using hocc)
  | cons a t ih =>
    intro h j
    unfold strFind at h
    split_ifs at h with hc
    rw [Option.map_eq_none'] at h
    match j with
    | 0 => exact hc
    | j + 1 => exact ih h j

/-- Claim C4: each literal catalog entry contributes at most one Domain Match —
only the leftmost occurrence of its motif, with 1-based start and
end = start + length(motif) − 1 — and contributes nothing (and no error) when
the motif is absent; entries are evaluated independently, the scan being the
concatenation of the per-entry results in catalog order. -/
theorem c4_literal_domains (seq : List Char) :
    scanDomains seq = DOMAIN_DB.flatMap (domainMatchesFor seq) ∧
    ∀ e ∈ DOMAIN_DB,
      (domainMatchesFor seq e).length ≤ 1 ∧
      (∀ d ∈ domainMatchesFor seq e,
        d.name = e.name ∧ d.function = e.function ∧
        1 ≤ d.start ∧ occursAt e.motif seq (d.start - 1) ∧
        (∀ j, j < d.start - 1 → ¬ occursAt e.motif seq j) ∧
        d.endPos = d.start + e.motif.length - 1) ∧
      ((∀ j, ¬ occursAt e.motif seq j) → domainMatchesFor seq e = []) := by
  refine ⟨rfl, ?_⟩
  intro e _
  refine ⟨?_, ?_, ?_⟩
  · unfold domainMatchesFor
    split <;> simp
  · intro d hd
    unfold domainMatchesFor at hd
    cases hfind : strFind e.motif seq with
    | none =>
      rw [hfind] at hd
      simp at hd
    | some idx =>
      rw [hfind] at hd
      simp only [List.mem_singleton] at hd
      subst hd
      obtain ⟨hocc, hmin⟩ := strFind_some hfind
      exact ⟨rfl, rfl, Nat.le_add_left 1 idx, hocc, fun j hj => hmin j hj, rfl⟩
  · intro hno
    unfold domainMatchesFor
    cases hfind : strFind e.motif seq with
    | none => rfl
    | some idx => exact absurd (strFind_some hfind).1 (hno idx)

theorem c4_literal_domains_witness :
    (domainMatchesFor (String.toList "AKINASEB")
      ⟨String.toList "KINASE", "Protein Kinase Domain",
        "Catalytic domain for phosphate transfer.", "Enzymatic Activity"⟩).length ≤ 1 :=
  ((c4_literal_domains (String.toList "AKINASEB")).2
    ⟨String.toList "KINASE", "Protein Kinase Domain",
      "Catalytic domain for phosphate transfer.", "Enzymatic Activity"⟩ (by decide)).1

/-! ### Claim C5: cross-referencing -/

/-- All (PTM, domain) pairs, in the traversal order of the nested loops. -/
def allPairs (ptms : List PTM) (domains : List DomainMatch) : List (PTM × DomainMatch) :=
  ptms.flatMap fun p => domains.map fun d => (p, d)

lemma crossReference_inner (p : PTM) (domains : List DomainMatch) :
    (domains.flatMap fun d =>
      if d.start ≤ p.pos ∧ p.pos ≤ d.endPos then
        [(⟨ptmDescriptor p, d.name⟩ : MappingEntry)]
      else [])
    = ((domains.map fun d => (p, d)).filter fun pd =>
        decide (pd.2.start ≤ pd.1.pos ∧ pd.1.pos ≤ pd.2.endPos)).map
        fun pd => ⟨ptmDescriptor pd.1, pd.2.name⟩ := by
  induction domains with
  | nil => rfl
  | cons d ds ih =>
    by_cases hc : d.start ≤ p.pos ∧ p.pos ≤ d.endPos <;>
      simp [List.filter_cons, hc, ih]

/-- Claim C5: the cross-referencer emits exactly one Mapping Entry for every
(PTM, domain) pair with inclusive containment — descriptor
"<type> (<residue><position>)", domain name — a PTM covered by no domain
contributes nothing, and overlapping domains each contribute a separate entry
with no deduplication: the output is exactly the filtered pair list, mapped. -/
theorem c5_cross_reference (ptms : List PTM) (domains : List DomainMatch) :
    crossReference ptms domains =
      ((allPairs ptms domains).filter fun pd =>
        decide (pd.2.start ≤ pd.1.pos ∧ pd.1.pos ≤ pd.2.endPos)).map
        (fun pd => ⟨ptmDescriptor pd.1, pd.2.name⟩) ∧
    (∀ m : MappingEntry, m ∈ crossReference ptms domains ↔
      ∃ p ∈ ptms, ∃ d ∈ domains, d.start ≤ p.pos ∧ p.pos ≤ d.endPos ∧
        m = ⟨ptmDescriptor p, d.name⟩) := by
  constructor
  · unfold crossReference allPairs
    induction ptms with
    | nil => rfl
    | cons p ps ih =>
      rw [List.flatMap_cons, List.flatMap_cons, List.filter_append, List.map_append,
        crossReference_inner, ih]
  · intro m
    unfold crossReference
    rw [List.mem_flatMap]
    constructor
    · rintro ⟨p, hp, hm⟩
      rw [List.mem_flatMap] at hm
      obtain ⟨d, hd, hmd⟩ := hm
      by_cases hc : d.start ≤ p.pos ∧ p.pos ≤ d.endPos
      · rw [if_pos hc] at hmd
        simp only [List.mem_singleton] at hmd
        exact ⟨p, hp, d, hd, hc.1, hc.2, hmd⟩
      · rw [if_neg hc] at hmd
        simp at hmd
    · rintro ⟨p, hp, d, hd, h1, h2, rfl⟩
      refine ⟨p, hp, ?_⟩
      rw [List.mem_flatMap]
      refine ⟨d, hd, ?_⟩
      rw [if_pos ⟨h1, h2⟩]
      simp

theorem c5_cross_reference_witness :
    ∀ m : MappingEntry,
      m ∈ crossReference [⟨"Phosphorylation", 'S', 4⟩]
          [⟨"Protein Kinase Domain", 3, 5, "Enzymatic Activity"⟩] ↔
      ∃ p ∈ [(⟨"Phosphorylation", 'S', 4⟩ : PTM)],
        ∃ d ∈ [(⟨"Protein Kinase Domain", 3, 5, "Enzymatic Activity"⟩ : DomainMatch)],
          d.start ≤ p.pos ∧ p.pos ≤ d.endPos ∧ m = ⟨ptmDescriptor p, d.name⟩ :=
  (c5_cross_reference [⟨"Phosphorylation", 'S', 4⟩]
    [⟨"Protein Kinase Domain", 3, 5, "Enzymatic Activity"⟩]).2

/-! ### Claim C6: the functional summary -/

/-- Claim C6: the summary is a function of the Domain Match list only: the
fixed sentence when the list is empty, otherwise the count of domains followed
by the distinct functional categories, comma-joined in some duplicate-free
order (the source's set-iteration order is unspecified). -/
theorem c6_summary (domains : List DomainMatch) :
    ∃ cats : List String, cats.Nodup ∧
      (∀ c, c ∈ cats ↔ c ∈ domains.map DomainMatch.function) ∧
      summarize domains =
        (if domains.isEmpty then
          "No known domains identified. Protein might be intrinsically disordered."
        else
          "This protein contains " ++ toString domains.length ++ " identified domains. " ++
          "Primary functions include: " ++ String.intercalate ", " cats ++ ".") := by
  refine ⟨(domains.map DomainMatch.function).dedup, List.nodup_dedup _, ?_, rfl⟩
  intro c
  exact List.mem_dedup

/-! ### Normalization lemmas (claims C2, C3, C7, C8, C10) -/

lemma pyStrip_getLast?_not_space {l : List Char} {x : Char}
    (h : (pyStrip l).getLast? = some x) : isPySpace x = false := by
  unfold pyStrip at h
  rw [List.getLast?_reverse] at h
  have hh := List.head?_dropWhile_not isPySpace ((l.dropWhile isPySpace).reverse)
  rw [h] at hh
  exact hh

lemma mem_pySplitlinesAux_not_boundary :
    ∀ (s acc : List Char), (∀ x ∈ acc, isLineBoundary x = false) →
      ∀ piece ∈ pySplitlinesAux s acc, ∀ x ∈ piece, isLineBoundary x = false := by
  intro s acc
  induction s, acc using pySplitlinesAux.induct with
  | case1 acc =>
    intro hacc piece hp x hx
    simp only [pySplitlinesAux, List.mem_singleton] at hp
    subst hp
    exact hacc x (List.mem_reverse.mp hx)
  | case2 c acc hb =>
    intro hacc piece hp x hx
    simp [pySplitlinesAux, hb] at hp
    subst hp
    exact hacc x (List.mem_reverse.mp hx)
  | case3 c acc hb =>
    intro hacc piece hp x hx
    simp [pySplitlinesAux, hb] at hp
    subst hp
    rcases List.mem_append.mp hx with h2 | h2
    · exact hacc x (List.mem_reverse.mp h2)
    · rw [List.mem_singleton] at h2
      subst h2
      simpa using hb
  | case4 c c2 acc hb hcr =>
    obtain ⟨rfl, rfl⟩ := hcr
    intro hacc piece hp x hx
    simp [pySplitlinesAux, hb] at hp
    subst hp
    exact hacc x (List.mem_reverse.mp hx)
  | case5 c c2 acc hb hcr head tail ih =>
    obtain ⟨rfl, rfl⟩ := hcr
    intro hacc piece hp x hx
    simp [pySplitlinesAux, hb] at hp
    rcases hp with rfl | hp2
    · exact hacc x (List.mem_reverse.mp hx)
    · exact ih (by simp) piece hp2 x hx
  | case6 c c2 rest2 acc hb hcr ih =>
    intro hacc piece hp x hx
    simp only [pySplitlinesAux, hb, if_true, if_neg hcr, List.mem_cons] at hp
    rcases hp with rfl | hp2
    · exact hacc x (List.mem_reverse.mp hx)
    · exact ih (by simp) piece hp2 x hx
  | case7 c c2 rest2 acc hb ih =>
    intro hacc piece hp x hx
    simp only [pySplitlinesAux, hb, if_false] at hp
    refine ih ?_ piece hp x hx
    intro y hy
    rcases List.mem_cons.mp hy with rfl | hy2
    · simpa using hb
    · exact hacc y hy2

lemma mem_pySplitlines_not_boundary {s piece : List Char} (hp : piece ∈ pySplitlines s)
    {x : Char} (hx : x ∈ piece) : isLineBoundary x = false := by
  match s with
  | [] => simp [pySplitlines] at hp
  | c :: rest =>
    exact mem_pySplitlinesAux_not_boundary (c :: rest) [] (by simp) piece hp x hx

lemma normalizeSeq_getLast?_ne_newline {raw : List Char} {x : Char}
    (h : (normalizeSeq raw).getLast? = some x) : ¬ x = '\n' := by
  intro hx
  subst hx
  unfold normalizeSeq at h
  by_cases hfa : (pyStrip (pyUpper raw)).head? = some '>'
  · rw [if_pos hfa] at h
    have hmem := List.mem_of_getLast?_eq_some h
    rw [List.mem_flatten] at hmem
    obtain ⟨piece, hpiece, hnl⟩ := hmem
    have hp2 : piece ∈ pySplitlines (pyStrip (pyUpper raw)) :=
      List.mem_of_mem_tail hpiece
    have := mem_pySplitlines_not_boundary hp2 hnl
    simp [isLineBoundary] at this
  · rw [if_neg hfa] at h
    have := pyStrip_getLast?_not_space h
    simp [isPySpace] at this

lemma regexValidates_normalizeSeq (raw : List Char) :
    regexValidates (normalizeSeq raw)
      = (!(normalizeSeq raw).isEmpty && (normalizeSeq raw).all isValidResidue) := by
  unfold regexValidates
  cases h : (normalizeSeq raw).getLast? with
  | none => simp [h]
  | some x =>
    have hx : ¬ x = '\n' := normalizeSeq_getLast?_ne_newline h
    simp [h, hx]

lemma validResidue_props {c : Char} (h : isValidResidue c = true) :
    c.isDigit = false ∧ isPySpace c = false ∧ Char.toUpper c = c ∧ ¬ c = '>' := by
  have hmem : c ∈ ALPHABET := by
    simpa [isValidResidue] using h
  fin_cases hmem <;> decide

lemma dropWhile_eq_self_of_false {p : Char → Bool} {l : List Char}
    (h : ∀ c ∈ l, p c = false) : l.dropWhile p = l := by
  cases l with
  | nil => rfl
  | cons a t =>
    exact List.dropWhile_cons_of_neg (by simp [h a (List.mem_cons_self a t)])

/-- Claim C2: `analyze_sequence` returns the error-only result exactly when
the canonical string is empty or contains a character outside the 20-letter
alphabet; otherwise it returns the fully populated success result — sequence,
ptms, domains, mapping, summary — whose sequence consists of valid residues
only.  (The structure `AnalysisResult` makes error and success mutually
exclusive, as the source returns either the error dict or the full dict.) -/
theorem c2_validation (raw : List Char) :
    analyze_sequence raw =
      (if !(normalizeSeq raw).isEmpty && (normalizeSeq raw).all isValidResidue then
        AnalysisResult.ok (normalizeSeq raw) (scanPTMs (normalizeSeq raw))
          (scanDomains (normalizeSeq raw))
          (crossReference (scanPTMs (normalizeSeq raw)) (scanDomains (normalizeSeq raw)))
          (summarize (scanDomains (normalizeSeq raw)))
      else AnalysisResult.error invalidMsg) ∧
    ((∃ msg, analyze_sequence raw = AnalysisResult.error msg) ↔
      (normalizeSeq raw = [] ∨ ∃ c ∈ normalizeSeq raw, isValidResidue c = false)) ∧
    ((match analyze_sequence raw with
      | AnalysisResult.ok s _ _ _ _ => s.all isValidResidue
      | AnalysisResult.error _ => true) = true) := by
  have hkey : analyze_sequence raw =
      (if !(normalizeSeq raw).isEmpty && (normalizeSeq raw).all isValidResidue then
        AnalysisResult.ok (normalizeSeq raw) (scanPTMs (normalizeSeq raw))
          (scanDomains (normalizeSeq raw))
          (crossReference (scanPTMs (normalizeSeq raw)) (scanDomains (normalizeSeq raw)))
          (summarize (scanDomains (normalizeSeq raw)))
      else AnalysisResult.error invalidMsg) := by
    simp only [analyze_sequence]
    rw [regexValidates_normalizeSeq]
    cases hb : !(normalizeSeq raw).isEmpty && (normalizeSeq raw).all isValidResidue <;> simp
  refine ⟨hkey, ?_, ?_⟩
  · constructor
    · rintro ⟨msg, hmsg⟩
      by_contra hcon
      push_neg at hcon
      obtain ⟨hne, hval⟩ := hcon
      have hX : (!(normalizeSeq raw).isEmpty && (normalizeSeq raw).all isValidResidue) = true := by
        rw [Bool.and_eq_true]
        refine ⟨by simpa [List.isEmpty_iff] using hne, ?_⟩
        rw [List.all_eq_true]
        intro c hc
        have := hval c hc
        simpa using this
      rw [hkey, hX] at hmsg
      simp at hmsg
    · intro hbad
      have hX : (!(normalizeSeq raw).isEmpty && (normalizeSeq raw).all isValidResidue) = false := by
        rcases hbad with hemp | ⟨c, hc, hcv⟩
        · simp [hemp]
        · have : (normalizeSeq raw).all isValidResidue = false := by
            rw [Bool.eq_false_iff]
            intro hall
            have := List.all_eq_true.mp hall c hc
            rw [hcv] at this
            exact Bool.false_ne_true this
          simp [this]
      rw [hkey, hX]
      exact ⟨invalidMsg, by simp⟩
  · rw [hkey]
    cases hX : (!(normalizeSeq raw).isEmpty && (normalizeSeq raw).all isValidResidue)
    · simp
    · rw [Bool.and_eq_true] at hX
      simp [hX.2]

/-- Claim C3: normalization upper-cases the input, strips surrounding
whitespace, and on a leading '>' discards the first line and concatenates the
remaining lines with no separator; ">header\nMSTYK" normalizes to "MSTYK"
(checked together with a lower-case, whitespace-padded, multi-line variant),
and in general the canonical string is exactly this composition. -/
theorem c3_normalization :
    normalizeSeq (String.toList ">header\nMSTYK") = String.toList "MSTYK" ∧
    normalizeSeq (String.toList "  >hdr\nms\ntyk\n") = String.toList "MSTYK" ∧
    ∀ raw : List Char,
      normalizeSeq raw =
        (if (pyStrip (pyUpper raw)).head? = some '>' then
          ((pySplitlines (pyStrip (pyUpper raw))).tail).flatten
        else pyStrip (pyUpper raw)) :=
  ⟨by decide, by decide, fun raw => rfl⟩

/-- Claim C7 counterexample: normalization does not remove interior digits or
interior whitespace — "M1STYK" and "MS TYK" reach validation unchanged and the
analysis fails, where the claim asserts the digit and the space are stripped
and validation succeeds. -/
theorem c7_counterexample :
    normalizeSeq (String.toList "M1STYK") = String.toList "M1STYK" ∧
    analyze_sequence (String.toList "M1STYK") = AnalysisResult.error invalidMsg ∧
    normalizeSeq (String.toList "MS TYK") = String.toList "MS TYK" ∧
    analyze_sequence (String.toList "MS TYK") = AnalysisResult.error invalidMsg :=
  ⟨by decide, by decide, by decide, by decide⟩

/-- Claim C7 (amended): normalization performs no digit or whitespace removal
beyond the leading/trailing strip and FASTA line-joining; any decimal digit or
(ASCII) whitespace character surviving in the canonical string makes
validation fail with the error result. -/
theorem c7_no_digit_space_removal (raw : List Char) (c : Char)
    (hmem : c ∈ normalizeSeq raw) (hc : c.isDigit = true ∨ isPySpace c = true) :
    analyze_sequence raw = AnalysisResult.error invalidMsg := by
  have hval : isValidResidue c = false := by
    rw [Bool.eq_false_iff]
    intro htrue
    obtain ⟨hd, hs, -, -⟩ := validResidue_props htrue
    rcases hc with h | h
    · rw [hd] at h
      exact Bool.false_ne_true h
    · rw [hs] at h
      exact Bool.false_ne_true h
  have hall : (normalizeSeq raw).all isValidResidue = false := by
    rw [Bool.eq_false_iff]
    intro hcall
    have := List.all_eq_true.mp hcall c hmem
    rw [hval] at this
    exact Bool.false_ne_true this
  simp only [analyze_sequence]
  rw [regexValidates_normalizeSeq, hall]
  simp

theorem c7_no_digit_space_removal_witness :
    analyze_sequence (String.toList "M1STYK") = AnalysisResult.error invalidMsg :=
  c7_no_digit_space_removal (String.toList "M1STYK") '1' (by decide) (Or.inl (by decide))

/-- Claim C8: normalization is idempotent on canonical sequences: every
non-empty string of valid residues normalizes to itself and analyzes
successfully, returning itself as the canonical sequence. -/
theorem c8_idempotent (s : List Char) (h1 : s ≠ [])
    (h2 : ∀ c ∈ s, isValidResidue c = true) :
    normalizeSeq s = s ∧
    analyze_sequence s = AnalysisResult.ok s (scanPTMs s) (scanDomains s)
      (crossReference (scanPTMs s) (scanDomains s)) (summarize (scanDomains s)) := by
  have hup : pyUpper s = s := by
    unfold pyUpper
    have hfix : ∀ c ∈ s, Char.toUpper c = c :=
      fun c hc => (validResidue_props (h2 c hc)).2.2.1
    rw [List.map_congr_left hfix]
    simp
  have hns : ∀ c ∈ s, isPySpace c = false :=
    fun c hc => (validResidue_props (h2 c hc)).2.1
  have hstrip : pyStrip s = s := by
    unfold pyStrip
    rw [dropWhile_eq_self_of_false hns,
      dropWhile_eq_self_of_false fun c hc => hns c (List.mem_reverse.mp hc),
      List.reverse_reverse]
  have hhead : ¬ (pyStrip (pyUpper s)).head? = some '>' := by
    rw [hup, hstrip]
    cases s with
    | nil => exact absurd rfl h1
    | cons a t =>
      simp only [List.head?_cons, Option.some.injEq]
      exact (validResidue_props (h2 a (List.mem_cons_self a t))).2.2.2
  have hnorm : normalizeSeq s = s := by
    unfold normalizeSeq
    rw [if_neg hhead, hup, hstrip]
  refine ⟨hnorm, ?_⟩
  simp only [analyze_sequence]
  rw [regexValidates_normalizeSeq, hnorm]
  have hbool : (!s.isEmpty && s.all isValidResidue) = true := by
    rw [Bool.and_eq_true]
    refine ⟨?_, List.all_eq_true.mpr fun c hc => h2 c hc⟩
    cases s with
    | nil => exact absurd rfl h1
    | cons a t => rfl
  rw [hbool]
  simp

theorem c8_idempotent_witness :
    normalizeSeq (String.toList "MSTYK") = String.toList "MSTYK" ∧
    analyze_sequence (String.toList "MSTYK") =
      AnalysisResult.ok (String.toList "MSTYK") (scanPTMs (String.toList "MSTYK"))
        (scanDomains (String.toList "MSTYK"))
        (crossReference (scanPTMs (String.toList "MSTYK"))
          (scanDomains (String.toList "MSTYK")))
        (summarize (scanDomains (String.toList "MSTYK"))) :=
  c8_idempotent (String.toList "MSTYK") (by decide) (by decide)

/-! ### Claim C10: unreachable catalog entries -/

lemma startsList_subset : ∀ {n h : List Char}, startsList n h = true → ∀ c ∈ n, c ∈ h := by
  intro n
  induction n with
  | nil =>
    intro h _ c hc
    simp at hc
  | cons a as ih =>
    intro h hs c hc
    cases h with
    | nil => simp [startsList] at hs
    | cons b bs =>
      simp only [startsList, Bool.and_eq_true, beq_iff_eq] at hs
      obtain ⟨rfl, hrest⟩ := hs
      rcases List.mem_cons.mp hc with rfl | hc2
      · exact List.mem_cons_self _ _
      · exact List.mem_cons_of_mem _ (ih hrest c hc2)

lemma mem_domainMatchesFor_motif_subset {seq : List Char} {e : CatalogEntry}
    {d : DomainMatch} (hd : d ∈ domainMatchesFor seq e) : ∀ c ∈ e.motif, c ∈ seq := by
  unfold domainMatchesFor at hd
  cases hfind : strFind e.motif seq with
  | none =>
    rw [hfind] at hd
    simp at hd
  | some idx =>
    intro c hc
    have hocc := (strFind_some hfind).1
    unfold occursAt at hocc
    exact List.mem_of_mem_drop (startsList_subset hocc c hc)

lemma mem_domainMatchesFor_name {seq : List Char} {e : CatalogEntry}
    {d : DomainMatch} (hd : d ∈ domainMatchesFor seq e) : d.name = e.name := by
  unfold domainMatchesFor at hd
  cases hfind : strFind e.motif seq with
  | none =>
    rw [hfind] at hd
    simp at hd
  | some idx =>
    rw [hfind] at hd
    simp only [List.mem_singleton] at hd
    subst hd
    rfl

/-- Claim C10: a successful analysis never reports the "SH3 Domain" or
"WD40 Repeat" entries — their motifs "SH3" and "WD40" contain digits, which a
validated sequence cannot contain — so every reported Domain Match is the
kinase or heme entry. -/
theorem c10_unreachable_domains (raw s : List Char) (p : List PTM)
    (d : List DomainMatch) (m : List MappingEntry) (su : String)
    (h : analyze_sequence raw = AnalysisResult.ok s p d m su) :
    ∀ dm ∈ d, dm.name = "Protein Kinase Domain" ∨ dm.name = "Heme-binding Site" := by
  simp only [analyze_sequence] at h
  rw [regexValidates_normalizeSeq] at h
  cases hb : (!(normalizeSeq raw).isEmpty && (normalizeSeq raw).all isValidResidue) with
  | false =>
    rw [hb] at h
    simp at h
  | true =>
    rw [hb] at h
    simp only [Bool.not_true, Bool.false_eq_true, if_false, AnalysisResult.ok.injEq] at h
    obtain ⟨hs, hp, hd, hm, hsu⟩ := h
    have hvalid : ∀ c ∈ normalizeSeq raw, isValidResidue c = true := by
      rw [Bool.and_eq_true] at hb
      exact fun c hc => List.all_eq_true.mp hb.2 c hc
    intro dm hdm
    rw [← hd] at hdm
    unfold scanDomains at hdm
    rw [List.mem_flatMap] at hdm
    obtain ⟨e, he, hme⟩ := hdm
    simp only [DOMAIN_DB, List.mem_cons, List.mem_singleton, List.not_mem_nil, or_false] at he
    rcases he with rfl | rfl | rfl | rfl
    · exact absurd
        (hvalid '3' (mem_domainMatchesFor_motif_subset hme '3' (by decide)))
        (by decide)
    · exact Or.inl (mem_domainMatchesFor_name hme)
    · exact absurd
        (hvalid '4' (mem_domainMatchesFor_motif_subset hme '4' (by decide)))
        (by decide)
    · exact Or.inr (mem_domainMatchesFor_name hme)

theorem c10_unreachable_domains_witness :
    (⟨"Protein Kinase Domain", 1, 6, "Enzymatic Activity"⟩ : DomainMatch).name
        = "Protein Kinase Domain" ∨
      (⟨"Protein Kinase Domain", 1, 6, "Enzymatic Activity"⟩ : DomainMatch).name
        = "Heme-binding Site" :=
  c10_unreachable_domains (String.toList "KINASE") (String.toList "KINASE")
    [⟨"Acetylation/Ubiquitination", 'K', 1⟩, ⟨"N-glycosylation", 'N', 3⟩,
     ⟨"Phosphorylation", 'S', 5⟩]
    [⟨"Protein Kinase Domain", 1, 6, "Enzymatic Activity"⟩]
    [⟨"Acetylation/Ubiquitination (K1)", "Protein Kinase Domain"⟩,
     ⟨"N-glycosylation (N3)", "Protein Kinase Domain"⟩,
     ⟨"Phosphorylation (S5)", "Protein Kinase Domain"⟩]
    "This protein contains 1 identified domains. Primary functions include: Enzymatic Activity."
    (by decide) ⟨"Protein Kinase Domain", 1, 6, "Enzymatic Activity"⟩ (by decide)
